import Mathlib

/-!
Verification development for the translation-fitting core of the
AILocalization repository.

The Python sources are shallowly embedded:

* pure helpers (`match_score`, `validate_fit_in`, `segment_groups_map`,
  `get_text_group_inline`, `as_json_obj`) become Lean functions;
* the mutable BeautifulSoup document is an explicit store of element
  contents threaded through the write-back code;
* model/backend replies are oracles (functions from attempt index to a
  parsed reply), and every outbound call is recorded in a trace;
* Python exceptions become `Except PyErr`; `try`/`except` blocks become
  explicit matches on those results;
* CPython floats are modelled by exact rationals, and `str.lower` is
  modelled on the ASCII range (all inputs exercised here are ASCII).
-/

namespace AILoc

/-- Python-style JSON-ish values, the possible results of `json.loads`
in `as_json_obj` (objects keep insertion order, as CPython dicts do). -/
inductive PyVal where
  | pstr (s : String)
  | pint (n : Int)
  | plist (l : List PyVal)
  | pdict (l : List (String × PyVal))
  | pbool (b : Bool)
  | pnull

/-- Python exception classes that the embedded code can raise. -/
inductive PyErr where
  | valueError (msg : String)
  | typeError
  | attributeError
  | keyError
  | indexError
  | decodeError
  | otherError
deriving DecidableEq, Repr

/-- Python truthiness (`if not shreds_out`, `if reorder_group`, ...). -/
def pyTruthy : PyVal → Bool
  | .pstr s => s != ""
  | .pint n => n != 0
  | .plist l => !l.isEmpty
  | .pdict l => !l.isEmpty
  | .pbool b => b
  | .pnull => false

/-! ## `match_score` (src/translate/restruct.py)

`match_score` strips spaces, newlines, tabs, commas (ASCII and fullwidth)
and periods from both strings, lower-cases them, and returns
`difflib.SequenceMatcher(None, s1, s2).ratio()`.  The ratio is
`2*M/(len1+len2)` where `M` is the total size of the matching blocks
found by Ratcliff-Obershelp: repeatedly take the longest matching block
(ties: smallest start in `s1`, then smallest start in `s2` — exactly the
block difflib's scan finds first) and recurse on both sides.  Inputs here
are far below difflib's 200-char autojunk threshold, so the plain
no-junk algorithm is the faithful one. -/

/-- Characters removed by `match_score`'s `str.maketrans` table. -/
def compactDrop (c : Char) : Bool :=
  c = ' ' || c = '\n' || c = '\t' || c = ',' || c = '，' || c = '.'

/-- String normalisation done by `match_score` before comparing:
drop the translated-away characters, then lower-case. -/
def compact (s : String) : List Char :=
  (s.data.filter (fun c => !compactDrop c)).map Char.toLower

/-- Length of the longest common prefix of two character lists. -/
def lcpLen : List Char → List Char → Nat
  | a :: as, b :: bs => if a = b then lcpLen as bs + 1 else 0
  | _, _ => 0

/-- Size of the matching run starting at `(i, j)`, clipped to the
window `[_, ahi) × [_, bhi)`. -/
def runK (a b : List Char) (ahi bhi i j : Nat) : Nat :=
  min (min (lcpLen (a.drop i) (b.drop j)) (ahi - i)) (bhi - j)

/-- difflib's `find_longest_match` on the window
`[alo, ahi) × [blo, bhi)`: the largest matching block, ties broken by
smallest `i` then smallest `j` (the first block the dynamic scan meets). -/
def bestMatch (a b : List Char) (alo ahi blo bhi : Nat) : Nat × Nat × Nat :=
  (((List.range ahi).drop alo).flatMap (fun i =>
      ((List.range bhi).drop blo).map (fun j => (i, j, runK a b ahi bhi i j)))).foldl
    (fun best c => if best.2.2 < c.2.2 then c else best) (alo, blo, 0)

/-- Total matched size over difflib's recursive matching-block
decomposition.  The fuel only needs to dominate the recursion depth;
each recursive window is strictly narrower in `a`. -/
def matchTotalAux : Nat → List Char → List Char → Nat → Nat → Nat → Nat → Nat
  | 0, _, _, _, _, _, _ => 0
  | fuel + 1, a, b, alo, ahi, blo, bhi =>
    let m := bestMatch a b alo ahi blo bhi
    if m.2.2 = 0 then 0
    else
      m.2.2
      + (if alo < m.1 ∧ blo < m.2.1 then matchTotalAux fuel a b alo m.1 blo m.2.1 else 0)
      + (if m.1 + m.2.2 < ahi ∧ m.2.1 + m.2.2 < bhi then
          matchTotalAux fuel a b (m.1 + m.2.2) ahi (m.2.1 + m.2.2) bhi
        else 0)

/-- Total size of all matching blocks between `a` and `b`. -/
def matchTotal (a b : List Char) : Nat :=
  matchTotalAux (a.length + 1) a b 0 a.length 0 b.length

/-- difflib's `ratio()`:`2*M/T`, and `1.0` when both strings are empty.
`mkRat` is used instead of `/` so that concrete scores evaluate inside
the kernel; `mkRat a b = a / b` as rationals. -/
def ratioOf (a b : List Char) : ℚ :=
  if a.length + b.length = 0 then 1
  else mkRat (2 * matchTotal a b) (a.length + b.length)

/-- `match_score` from src/translate/restruct.py: normalised similarity
of two strings, `1.0` for a best match. -/
def match_score (s1 s2 : String) : ℚ :=
  ratioOf (compact s1) (compact s2)

/-- Equality on `Except` results is decidable once both sides are. -/
instance {ε α : Type} [DecidableEq ε] [DecidableEq α] : DecidableEq (Except ε α) :=
  fun x y =>
    match x, y with
    | .ok a, .ok b =>
      if h : a = b then isTrue (by rw [h]) else isFalse (fun hh => by cases hh; exact h rfl)
    | .error a, .error b =>
      if h : a = b then isTrue (by rw [h]) else isFalse (fun hh => by cases hh; exact h rfl)
    | .ok _, .error _ => isFalse (fun hh => by cases hh)
    | .error _, .ok _ => isFalse (fun hh => by cases hh)

/-- Stable insertion into a sorted list: `x` goes after every element
`y` with `le y x`, so equal elements keep their arrival order. -/
def insertSorted (le : α → α → Bool) (x : α) : List α → List α
  | [] => [x]
  | y :: ys => if le y x then y :: insertSorted le x ys else x :: y :: ys

/-- Stable sort (the result CPython's stable `sorted`/`list.sort`
produces for a total preorder), kernel-computable. -/
def stableSortBy (le : α → α → Bool) (l : List α) : List α :=
  l.foldl (fun acc x => insertSorted le x acc) []

/-! ## `validate_fit_in` (src/translate/restruct.py) -/

/-- The f-string `'Length not match, in({n}) != out({m}).'`. -/
def lengthNotMatchMsg (nin nout : Nat) : String :=
  "Length not match, in(" ++ toString nin ++ ") != out(" ++ toString nout ++ ")."

/-- The f-string `'String not match, to_fit="{t}" | fit="{f}"'`. -/
def stringNotMatchMsg (toFit fit : String) : String :=
  "String not match, to_fit=\"" ++ toFit ++ "\" | fit=\"" ++ fit ++ "\""

/-- Value of a non-empty all-digit character list. -/
def digitsToNat (ds : List Char) : Option Nat :=
  if ds ≠ [] ∧ ds.all Char.isDigit then
    some (ds.foldl (fun acc c => acc * 10 + (c.toNat - 48)) 0)
  else none

/-- Python `int(s)` for a plain decimal literal with optional sign
(the keys handled here are `"0"`, `"1"`, ...; Python's surrounding
whitespace and underscores are not needed). -/
def pyParseInt (s : String) : Option Int :=
  match s.data with
  | '-' :: ds => (digitsToNat ds).map (fun n => -(n : Int))
  | '+' :: ds => (digitsToNat ds).map (fun n => (n : Int))
  | ds => (digitsToNat ds).map (fun n => (n : Int))

/-- Python `sorted(shreds_out.items(), key=lambda x: int(x[0]))`;
raises `ValueError` when a key is not an integer literal. -/
def sortByIntKey (l : List (String × PyVal)) : Except PyErr (List (String × PyVal)) :=
  if l.all (fun p => (pyParseInt p.1).isSome) then
    .ok (stableSortBy (fun p q => decide ((pyParseInt p.1).getD 0 ≤ (pyParseInt q.1).getD 0)) l)
  else .error (.valueError "invalid literal for int()")

/-- Python `''.join(values)`; raises `TypeError` on a non-string item. -/
def pyStrJoin : List PyVal → Except PyErr String
  | [] => .ok ""
  | .pstr s :: rest => do
    let r ← pyStrJoin rest
    .ok (s ++ r)
  | _ :: _ => .error .typeError

/-- `validate_fit_in` from src/translate/restruct.py: length mismatch
scores `0.`; otherwise the candidate pieces are sorted by integer key,
concatenated and compared with `trans_str`; a similarity below `0.7`
is returned with a reason, anything at or above `0.7` is clamped to a
perfect `1.` with an empty reason. -/
def validate_fit_in (shreds_in : List (String × PyVal)) (trans_str : String)
    (shreds_out : List (String × PyVal)) : Except PyErr (ℚ × String) :=
  if shreds_in.length ≠ shreds_out.length then
    .ok (0, lengthNotMatchMsg shreds_in.length shreds_out.length)
  else do
    let sorted ← sortByIntKey shreds_out
    let fit_str ← pyStrJoin (sorted.map Prod.snd)
    let score := match_score trans_str fit_str
    if score < mkRat 7 10 then .ok (score, stringNotMatchMsg trans_str fit_str)
    else .ok (1, "")

/-! ## Python dynamic-typing helpers

Small total models of the CPython operations the restructuring code
performs on values freshly parsed from model replies. -/

mutual

/-- Structural equality on `PyVal`, used for Python `in` on lists. -/
def PyVal.beq : PyVal → PyVal → Bool
  | .pstr a, .pstr b => a == b
  | .pint a, .pint b => a == b
  | .pbool a, .pbool b => a == b
  | .pnull, .pnull => true
  | .plist a, .plist b => PyVal.beqL a b
  | .pdict a, .pdict b => PyVal.beqD a b
  | _, _ => false

/-- Pointwise equality of `PyVal` lists. -/
def PyVal.beqL : List PyVal → List PyVal → Bool
  | [], [] => true
  | a :: as, b :: bs => PyVal.beq a b && PyVal.beqL as bs
  | _, _ => false

/-- Pointwise equality of `PyVal` dict entry lists. -/
def PyVal.beqD : List (String × PyVal) → List (String × PyVal) → Bool
  | [], [] => true
  | a :: as, b :: bs => (a.1 == b.1 && PyVal.beq a.2 b.2) && PyVal.beqD as bs
  | _, _ => false

end

/-- Substring test, Python `needle in haystack` for strings. -/
def strIn (needle haystack : String) : Bool :=
  (List.range (haystack.data.length + 1)).any
    (fun i => ((haystack.data.drop i).take needle.data.length) == needle.data)

/-- Replace the value of an existing key in place, else append —
how assigning to a CPython dict key behaves. -/
def upsert : List (String × PyVal) → String → PyVal → List (String × PyVal)
  | [], k, v => [(k, v)]
  | (k', v') :: rest, k, v =>
    if k' = k then (k', v) :: rest else (k', v') :: upsert rest k v

/-- Canonical dict: first-occurrence positions, last-occurrence values —
the dict `json.loads` builds from an object with (possibly) repeated keys. -/
def canonDict (l : List (String × PyVal)) : List (String × PyVal) :=
  l.foldl (fun acc p => upsert acc p.1 p.2) []

/-- Python `key in value` for a string key. -/
def pyContains (v : PyVal) (k : String) : Except PyErr Bool :=
  match v with
  | .pdict l => .ok ((l.map Prod.fst).contains k)
  | .pstr s => .ok (strIn k s)
  | .plist l => .ok (l.any (fun x => PyVal.beq x (.pstr k)))
  | _ => .error .typeError

/-- Python `value[key]` for a string key. -/
def pySubscript (v : PyVal) (k : String) : Except PyErr PyVal :=
  match v with
  | .pdict l =>
    match l.find? (fun p => p.1 == k) with
    | some p => .ok p.2
    | none => .error .keyError
  | _ => .error .typeError

/-- Python `len(value)`. -/
def pyLen : PyVal → Except PyErr Nat
  | .pstr s => .ok s.length
  | .plist l => .ok l.length
  | .pdict l => .ok l.length
  | _ => .error .typeError

/-- Python `value[i]` for a non-negative integer `i`. -/
def pyIndexNat : PyVal → Nat → Except PyErr PyVal
  | .plist l, i =>
    match l.get? i with
    | some x => .ok x
    | none => .error .indexError
  | .pstr s, i =>
    match s.data.get? i with
    | some c => .ok (.pstr (String.mk [c]))
    | none => .error .indexError
  | .pdict _, _ => .error .keyError
  | _, _ => .error .typeError

/-- Python `list[n]` with an `int` index (negative indices wrap). -/
def pyListGetI (l : List α) (n : Int) : Except PyErr α :=
  let idx : Int := if n < 0 then n + l.length else n
  if idx < 0 then .error .indexError
  else
    match l.get? idx.toNat with
    | some x => .ok x
    | none => .error .indexError

/-- Python `int`-ness for indexing/comparison (`bool` is an `int`). -/
def pyAsInt : PyVal → Except PyErr Int
  | .pint n => .ok n
  | .pbool b => .ok (if b then 1 else 0)
  | _ => .error .typeError

/-! ## Document store and inline groups (src/pages/general_functions.py)

A BeautifulSoup element's `contents` is a mutable child list; the model
keeps, for every element identity `eid : Nat`, its child list in a store.
`replace_with` on the child at index `cid` swaps it for a text node. -/

/-- One entry of an element's `contents` list. -/
inductive DomChild where
  | textC (s : String)
  | tagC (name : String)
deriving DecidableEq, Repr

/-- All element child lists, indexed by element identity. -/
abbrev Store := List (List DomChild)

/-- `InlineGroup` dataclass: parallel lists of text shreds, child
indices and owning elements (elements here by identity `ε`). -/
structure InlineGroup (ε : Type) where
  text_shreds : List String
  cids : List Nat
  elements : List ε
deriving DecidableEq, Repr

/-- `InlineGroup.__str__`: concatenation of the text shreds. -/
def InlineGroup.toStr (g : InlineGroup ε) : String :=
  String.join g.text_shreds

/-- One outbound backend call, as recorded in the trace. -/
inductive CallKind where
  | mapCall
  | reorderCall
  | reviewCall (model : String)
  | improveCall
deriving DecidableEq, Repr

/-! ## `restruct` (src/translate/restruct.py)

The chat streams are abstracted into oracles: `mapO n` is the
`as_json_obj`-parsed reply of the `n`-th mapping attempt (`none` when
parsing failed), `reorderO` that of the single reorder call.  Everything
else — the retry loop, key fix-up, candidate accrual, best-candidate
selection and the per-piece write-back — is translated statement by
statement. -/

/-- `shreds_in`: the group's shreds keyed `"0"`, `"1"`, ... . -/
def shredsInOf (g : InlineGroup ε) : List (String × PyVal) :=
  g.text_shreds.enum.map (fun p => (toString p.1, PyVal.pstr p.2))

/-- The key fix-up of `restruct`: entries with unknown keys are dropped
(with a warning), missing keys are backfilled with `""`. -/
def fixKeys (inKeys : List String) (outs : List (String × PyVal)) :
    List (String × PyVal) :=
  outs.filter (fun p => inKeys.contains p.1)
    ++ (inKeys.filter (fun k => !(outs.map Prod.fst).contains k)).map
        (fun k => (k, PyVal.pstr ""))

/-- Body of one iteration of the retry loop: returns the candidate
appended to `fit_candidates` (if any) and whether the loop `break`s
(validation succeeded).  Any raise inside the `try` is a `false`. -/
def attemptOnce (shredsIn : List (String × PyVal)) (trans : String)
    (resp : Option PyVal) : Option (ℚ × List (String × PyVal)) × Bool :=
  match resp with
  | none => (none, false)
  | some v =>
    if !pyTruthy v then (none, false)
    else
      match v with
      | .pdict l =>
        let fixed := fixKeys (shredsIn.map Prod.fst) (canonDict l)
        match validate_fit_in shredsIn trans fixed with
        | .error _ => (none, false)
        | .ok (score, err) => (some (score, fixed), err = "")
      | _ => (none, false)

/-- The retry loop of `restruct`: attempt `i` uses reply `mapO i`;
`fuel` is the number of retries still allowed (`max_retry = 10`, so the
loop starts with fuel 10 and runs at most 11 attempts).  Returns the
collected `fit_candidates` and the number of attempts made. -/
def restructLoop (mapO : Nat → Option PyVal) (shredsIn : List (String × PyVal))
    (trans : String) : Nat → Nat → List (ℚ × List (String × PyVal)) →
    List (ℚ × List (String × PyVal)) × Nat
  | i, 0, acc =>
    (acc ++ (attemptOnce shredsIn trans (mapO i)).1.toList, i + 1)
  | i, fuel + 1, acc =>
    match attemptOnce shredsIn trans (mapO i) with
    | (c, true) => (acc ++ c.toList, i + 1)
    | (c, false) => restructLoop mapO shredsIn trans (i + 1) fuel (acc ++ c.toList)

/-- Python `max(candidates, key=lambda x: x[0])`: first candidate of
maximal score. -/
def pyMaxByScore (x : ℚ × α) (xs : List (ℚ × α)) : ℚ × α :=
  xs.foldl (fun best c => if best.1 < c.1 then c else best) x

/-- Rebuild `final_elements` from the model's `reordered_elements_info`:
entries whose `element_id` echoes a known id map to that element,
otherwise `group.elements[info['index']]` is used. -/
def rebuildElements (info : PyVal) (elements : List Nat) :
    Except PyErr (List Nat) := do
  let items ← (match info with
    | .plist l => .ok l
    | .pdict l => .ok (l.map (fun p => PyVal.pstr p.1))
    | .pstr s => .ok (s.data.map (fun c => PyVal.pstr (String.mk [c])))
    | _ => .error PyErr.typeError)
  items.foldlM (fun acc elemInfo => do
    let eidv ← pySubscript elemInfo "element_id"
    match eidv with
    | .pstr s =>
      match elements.find? (fun e => toString e == s) with
      | some e => pure (acc ++ [e])
      | none => do
        let idxv ← pySubscript elemInfo "index"
        let n ← pyAsInt idxv
        let e ← pyListGetI elements n
        pure (acc ++ [e])
    | _ => do
      let idxv ← pySubscript elemInfo "index"
      let n ← pyAsInt idxv
      let e ← pyListGetI elements n
      pure (acc ++ [e])) []

/-- The `final_shreds_out` / `final_cids` / `final_elements` triple fed
to the write-back loop. -/
structure Finals where
  shreds : List (String × PyVal)
  cids : PyVal
  eles : List Nat

/-- Resolution of the reorder reply (lines 227-268 of restruct.py):
defaults are the best candidate's pieces, `group.cids`, and
`group.elements`; a truthy dict reply carrying `reordered_text_shreds`
overrides them.  `len(final_shreds_out)` and `.items()` run outside any
`try`, so a non-dict override propagates an exception. -/
def resolveFinals (reorderO : Option PyVal) (bestShreds : List (String × PyVal))
    (group : InlineGroup Nat) : Except PyErr Finals := do
  let dflt : Finals :=
    ⟨bestShreds, .plist (group.cids.map (fun c => PyVal.pint c)), group.elements⟩
  match reorderO with
  | none => pure dflt
  | some rg =>
    if !pyTruthy rg then pure dflt
    else do
      let hasShreds ← pyContains rg "reordered_text_shreds"
      if !hasShreds then pure dflt
      else do
        let fsv ← pySubscript rg "reordered_text_shreds"
        let hasCids ← pyContains rg "reordered_cids"
        let cids ← if hasCids then pySubscript rg "reordered_cids"
          else pure dflt.cids
        let hasEinfo ← pyContains rg "reordered_elements_info"
        let eles ← if hasEinfo then do
            let info ← pySubscript rg "reordered_elements_info"
            rebuildElements info group.elements
          else pure group.elements
        let _ ← pyLen fsv
        match fsv with
        | .pdict l => pure ⟨canonDict l, cids, eles⟩
        | _ => .error .attributeError

/-- One iteration of the write-back loop (inside its own `try`):
returns the updated store when the piece was written, `none` when the
item was skipped by a guard or an exception. -/
def writeItem (store : Store) (cids : PyVal) (eles : List Nat) (i : Nat)
    (v : PyVal) : Option Store := do
  let ncids ← (pyLen cids).toOption
  if i ≥ ncids then none
  else if i ≥ eles.length then none
  else do
    let cidv ← (pyIndexNat cids i).toOption
    let n ← (pyAsInt cidv).toOption
    let eid := eles.getD i 0
    let contents := store.getD eid []
    if n < (contents.length : Int) then do
      let s ← (match v with | .pstr s => some s | _ => none)
      let idx : Int := if n < 0 then n + contents.length else n
      if idx < 0 then none
      else if idx.toNat < contents.length then
        some (store.set eid (contents.set idx.toNat (.textC s)))
      else none
    else none

/-- The write-back loop: every piece of `final_shreds_out` is processed
independently; failures are swallowed (`continue`) and counted. -/
def writeBack (finals : Finals) (store : Store) : Store × Nat × Nat :=
  finals.shreds.enum.foldl
    (fun st p =>
      match writeItem st.1 finals.cids finals.eles p.1 p.2.2 with
      | some store' => (store', st.2.1 + 1, st.2.2)
      | none => (st.1, st.2.1, st.2.2 + 1))
    (store, 0, 0)

/-- Result of a `restruct` / `group_fit_in` run: the Python return code
(`'S'`, `'C'` or `'F'`), the document store afterwards, the trace of
backend calls, and the number of written and of skipped pieces. -/
structure RestructOut where
  code : Char
  store : Store
  trace : List CallKind
  wbWrites : Nat
  wbSkips : Nat
deriving DecidableEq, Repr

/-- `restruct` from src/translate/restruct.py.  `ori` is only used in
prompt text, never in control flow. -/
def restruct (mapO : Nat → Option PyVal) (reorderO : Option PyVal)
    (group : InlineGroup Nat) (ori trans : String) (store : Store) :
    Except PyErr RestructOut :=
  let shredsIn := shredsInOf group
  let lp := restructLoop mapO shredsIn trans 0 10 []
  match lp.1 with
  | [] => .ok ⟨'F', store, List.replicate lp.2 .mapCall, 0, 0⟩
  | c :: cs => do
    let best := pyMaxByScore c cs
    let finals ← resolveFinals reorderO best.2 group
    let wb := writeBack finals store
    .ok ⟨if best.1 < 1 then 'C' else 'S', wb.1,
      List.replicate lp.2 .mapCall ++ [.reorderCall], wb.2.1, wb.2.2⟩

/-- `group_fit_in` from src/translate/restruct.py: fast path 1 (already
in target form), fast path 2 (single fragment), else `restruct`. -/
def group_fit_in (mapO : Nat → Option PyVal) (reorderO : Option PyVal)
    (group : InlineGroup Nat) (ori trans : String) (store : Store) :
    Except PyErr RestructOut :=
  if match_score group.toStr trans = 1 then
    .ok ⟨'S', store, [], 0, 0⟩
  else if group.text_shreds.length = 1 then do
    let eid ← (match group.elements.head? with
      | some e => .ok e
      | none => .error PyErr.indexError)
    let cid ← (match group.cids.head? with
      | some c => .ok c
      | none => .error PyErr.indexError)
    let contents := store.getD eid []
    if cid < contents.length then
      .ok ⟨'S', store.set eid (contents.set cid (.textC trans)), [], 1, 0⟩
    else .error .indexError
  else restruct mapO reorderO group ori trans store

/-! ## `segment_groups_map` (src/translate/translate.py, lines 82-119)

`math.ceil` of an exact integer quotient; Python computes the quotient
in floating point, which agrees on every realistic size. -/

/-- Ceiling division on naturals (`math.ceil(a / b)` for `b > 0`). -/
def ceilDiv (a b : Nat) : Nat := (a + b - 1) / b

/-- Total estimated size of one emitted segment. -/
def segTotal (tokenCounter : String → Nat) (seg : List (String × InlineGroup ε)) : Nat :=
  (seg.map (fun p => tokenCounter p.2.toStr)).sum

/-- Loop state of `segment_groups_map`: closed segments, running token
count, running per-segment key counter, open segment. -/
structure SegState (ε : Type) where
  ret : List (List (String × InlineGroup ε))
  tokenCnt : Nat
  cnt : Nat
  seg : List (String × InlineGroup ε)

/-- One iteration of the segmentation loop: oversized runs are skipped;
the open segment is closed when the count already exceeds `lenSeg`
before the run is added; then the run is appended under key `str(cnt)`. -/
def segStep (maxToken lenSeg : Nat) (tokenCounter : String → Nat)
    (st : SegState ε) (kg : String × InlineGroup ε) : SegState ε :=
  let n := tokenCounter kg.2.toStr
  if n > maxToken then st
  else
    let st' : SegState ε :=
      if st.tokenCnt > lenSeg && !st.seg.isEmpty then ⟨st.ret ++ [st.seg], 0, 0, []⟩
      else st
    ⟨st'.ret, st'.tokenCnt + n, st'.cnt + 1, st'.seg ++ [(toString st'.cnt, kg.2)]⟩

/-- `segment_groups_map`: greedy packing of the ordered run map into
segments; the final open segment is always appended.  (For
`max_token = 0` Python would raise `ZeroDivisionError`; the claims only
concern positive budgets.) -/
def segment_groups_map (groupsMap : List (String × InlineGroup ε)) (maxToken : Nat)
    (tokenCounter : String → Nat) : List (List (String × InlineGroup ε)) :=
  let tokenAll := (groupsMap.map (fun p => tokenCounter p.2.toStr)).sum
  if tokenAll = 0 then []
  else
    let nSeg := ceilDiv tokenAll maxToken
    let lenSeg := ceilDiv tokenAll nSeg
    let fin := groupsMap.foldl (segStep maxToken lenSeg tokenCounter) ⟨[], 0, 0, []⟩
    fin.ret ++ [fin.seg]

/-! ## `get_text_group_inline` (src/pages/general_functions.py)

The BeautifulSoup tree becomes an inductive `Node`; element identity is
the child-index path from the root.  `traversal` is the nested
depth-first walk with the monotone fragment counter `cnt`, the open
`group`, and the `all_groups` accumulator. -/

/-- Document tree node: text leaf, comment/doctype, or element. -/
inductive Node where
  | textN (s : String)
  | commentN (s : String)
  | elemN (name : String) (children : List Node)

/-- `is_inline_ele` from src/pages/general_functions.py. -/
def is_inline_ele (name : String) : Bool :=
  ["a", "abbr", "acronym", "b", "bdo", "big", "br", "button", "cite",
   "code", "dfn", "em", "i", "img", "input", "kbd", "label", "map",
   "object", "output", "q", "samp", "script", "select", "small", "span",
   "strong", "sub", "sup", "textarea", "time", "tt", "var", "text",
   "link"].contains name

/-- Python `set(c).issubset({'\n', '\xa0'})`: every character of the
text (vacuously: the empty text) is ignorable whitespace. -/
def ignorableText (s : String) : Bool :=
  s.data.all (fun c => c = '\n' || c = '\xA0')

/-- Python `c.replace('\n', '')`. -/
def stripNl (s : String) : String :=
  String.mk (s.data.filter (fun c => c ≠ '\n'))

/-- One collected text fragment: its (newline-stripped) text, child
index in the owner, owner element path, and `sourceOrder` counter. -/
structure Shred where
  text : String
  cid : Nat
  eid : List Nat
  ord : Nat
deriving DecidableEq, Repr

/-- The tail of `traversal`: a block element flushes its trailing open
group and returns `None`, an inline element returns its open group. -/
def travFlush (inline : Bool) (r : List Shred × Nat × List (List Shred)) :
    Option (List Shred) × Nat × List (List Shred) :=
  if ¬ inline then (none, r.2.1, if r.1 ≠ [] then r.2.2 ++ [r.1] else r.2.2)
  else (some r.1, r.2.1, r.2.2)

/-- The child loop of `traversal`: walks the children `cid, cid+1, ...`
of the element at `path` (whose inline status is `inline`), threading
the counter, the open group and the emitted groups.  The recursion is
paid for by `fuel`, larger than the call depth whenever instantiated
with the tree's `sizeOf`; the fuel-out branch is then unreachable, and
the theorems below hold for every fuel. -/
def travGo : Nat → List Nat → Bool → List Node → Nat → Nat → List Shred →
    List (List Shred) → List Shred × Nat × List (List Shred)
  | 0, _, _, _, _, cnt, group, acc => (group, cnt, acc)
  | fuel + 1, path, inline, cs, cid, cnt, group, acc =>
    match cs with
    | [] => (group, cnt, acc)
    | c :: rest =>
      match c with
      | .commentN _ => travGo fuel path inline rest (cid + 1) cnt group acc
      | .textN s =>
        if ignorableText s then travGo fuel path inline rest (cid + 1) cnt group acc
        else travGo fuel path inline rest (cid + 1) (cnt + 1)
          (group ++ [⟨stripNl s, cid, path, cnt⟩]) acc
      | .elemN nm cs' =>
        if nm = "script" then travGo fuel path inline rest (cid + 1) cnt group acc
        else
          match travFlush (is_inline_ele nm)
            (travGo fuel (path ++ [cid]) (is_inline_ele nm) cs' 0 cnt [] acc) with
          | (some shreds, cnt', acc') =>
            travGo fuel path inline rest (cid + 1) cnt' (group ++ shreds) acc'
          | (none, cnt', acc') =>
            if ¬ inline ∧ group ≠ [] then
              travGo fuel path inline rest (cid + 1) cnt' [] (acc' ++ [group])
            else travGo fuel path inline rest (cid + 1) cnt' group acc'

/-- `traversal(ele)` for the element `name` with children `cs`. -/
def travElem (fuel : Nat) (path : List Nat) (name : String) (cs : List Node)
    (cnt : Nat) (acc : List (List Shred)) :
    Option (List Shred) × Nat × List (List Shred) :=
  travFlush (is_inline_ele name) (travGo fuel path (is_inline_ele name) cs 0 cnt [] acc)

/-- The raw `all_groups` accumulator after `traversal(element)` (whose
return value Python discards).  The fuel is a modelling artefact: any
value at least the number of nodes of `root` makes every fuel-out
branch unreachable, and the theorems below hold for every fuel. -/
def extractGroupsRaw (fuel : Nat) (root : Node) : List (List Shred) :=
  match root with
  | .elemN name cs => (travElem fuel [] name cs 0 []).2.2
  | _ => []

/-- Sort key `lambda x: x[0][3]`: the first fragment's counter. -/
def firstOrd (g : List Shred) : Nat :=
  match g with
  | [] => 0
  | s :: _ => s.ord

/-- `all_groups` after `all_groups.sort(key=lambda x: x[0][3])`
(Python's sort is stable, as is `mergeSort`). -/
def extractGroups (fuel : Nat) (root : Node) : List (List Shred) :=
  stableSortBy (fun g1 g2 => decide (firstOrd g1 ≤ firstOrd g2)) (extractGroupsRaw fuel root)

/-- `get_text_group_inline`: the sorted groups under sequential string
ids `"0"`, `"1"`, ... . -/
def get_text_group_inline (fuel : Nat) (root : Node) :
    List (String × InlineGroup (List Nat)) :=
  (extractGroups fuel root).enum.map (fun p =>
    (toString p.1, ⟨p.2.map Shred.text, p.2.map Shred.cid, p.2.map Shred.eid⟩))

/-- Modelled from the spec: the document's text fragments in
left-to-right depth-first order (with the extractor's skip rules);
claim C5 compares the extractor's output against this order.  Fuelled
like `travGo`. -/
def specDfsTexts : Nat → Node → List String
  | _, .textN s => if ignorableText s then [] else [stripNl s]
  | _, .commentN _ => []
  | 0, .elemN _ _ => []
  | fuel + 1, .elemN name cs =>
    if name = "script" then []
    else (cs.map (specDfsTexts fuel)).flatten

/-! ## `review_n_improve_process` (src/review/review.py, lines 347-698)

Each (round, model) backend reply is abstracted to what the code
extracts from it: unparseable (`as_json_obj` gave `None`), parsed but
not a dict, a dict missing the `'Suggestions'` key (`KeyError`), or a
dict with a `'Suggestions'` value.  The improve block (lines 528-593)
is commented out in the source, so there is no improve call to model;
file reporting (`review_path`) is outside the embedding. -/

/-- What one review reply gives the loop. -/
inductive RResp where
  | unparseable
  | nonDict
  | dictNoKey
  | dictWithKey (v : PyVal)

/-- `process_pass_flag`: `False`, `True`, or the error string
`'Error in review response with {model}'`. -/
inductive PassFlag where
  | notPassed
  | passed
  | errorIn (model : String)
deriving DecidableEq, Repr

/-- What `reviewed_dict[round][model]` holds: the raw response string,
the raw response dict, or the extracted `'Suggestions'` value
(`none` models Python `None`). -/
inductive REntry where
  | rawStr
  | rawDict
  | sugg (s : Option PyVal)

/-- Python `type(flag) == str and 'Error in review response' in flag`. -/
def isErrorFlag : PassFlag → Bool
  | .errorIn _ => true
  | _ => false

/-- The `value is None` test of the all-perfect check. -/
def entryIsNone : REntry → Bool
  | .sugg none => true
  | _ => false

/-- Processing of one model's reply inside a round: an unparseable or
key-less reply records the raw response and sets the error flag. -/
def reviewStep (oracle : Nat → Nat → RResp) (r : Nat)
    (acc : List (String × REntry) × PassFlag × List CallKind) (p : Nat × String) :
    List (String × REntry) × PassFlag × List CallKind :=
  match oracle r p.1 with
  | .unparseable =>
    (acc.1 ++ [(p.2, .rawStr)], .errorIn p.2, acc.2.2 ++ [.reviewCall p.2])
  | .nonDict =>
    (acc.1 ++ [(p.2, .sugg none)], acc.2.1, acc.2.2 ++ [.reviewCall p.2])
  | .dictNoKey =>
    (acc.1 ++ [(p.2, .rawDict)], .errorIn p.2, acc.2.2 ++ [.reviewCall p.2])
  | .dictWithKey v =>
    (acc.1 ++ [(p.2, .sugg (match v with | .pnull => none | w => some w))],
     acc.2.1, acc.2.2 ++ [.reviewCall p.2])

/-- One review round: every model is queried once. -/
def reviewRound (oracle : Nat → Nat → RResp) (models : List String) (r : Nat)
    (flag0 : PassFlag) : List (String × REntry) × PassFlag × List CallKind :=
  models.enum.foldl (reviewStep oracle r) ([], flag0, [])

/-- The round loop: abort after a round with the error flag, stop with
`passed` after an all-perfect round, otherwise run the next round —
the current translation is never modified (the improve block is
commented out in the source). -/
def reviewRounds (oracle : Nat → Nat → RResp) (models : List String) :
    Nat → Nat → PassFlag → List CallKind → PassFlag × Nat × List CallKind
  | r, 0, flag, tr => (flag, r, tr)
  | r, fuel + 1, flag, tr =>
    match reviewRound oracle models r flag with
    | (entries, flag', calls) =>
      if isErrorFlag flag' then (flag', r + 1, tr ++ calls)
      else if ¬ entries.isEmpty ∧ entries.all (fun e => entryIsNone e.2) then
        (.passed, r + 1, tr ++ calls)
      else reviewRounds oracle models (r + 1) fuel flag' (tr ++ calls)

/-- The default of the `max_retry_times` parameter in the source. -/
def reviewDefaultMaxRetry : Nat := 1

/-- Result of `review_n_improve_process`: the returned translation, the
recorded pass flag, rounds entered, and the backend-call trace. -/
structure ReviewOut where
  finalText : String
  flag : PassFlag
  rounds : Nat
  trace : List CallKind
deriving Repr

/-- `review_n_improve_process` (non-native path, no report file): runs
up to `maxRetryTimes` review rounds and returns `translated_text`,
which no statement of the loop ever rebinds. -/
def review_n_improve_process (sourceText translatedText : String)
    (models : List String) (oracle : Nat → Nat → RResp)
    (maxRetryTimes : Nat := reviewDefaultMaxRetry) : ReviewOut :=
  let res := reviewRounds oracle models 0 maxRetryTimes .notPassed []
  ⟨translatedText, res.1, res.2.1, res.2.2⟩

/-! ## `as_json_obj` (src/pages/general_functions.py, lines 100-158)

The standard-library pieces (`re.findall` with the nested-brace
pattern, the four `re.sub` repairs, `json.loads`) are outside the
repository and become an environment; the function's own control flow
— empty-string early return, the match loop that retries on
`JSONDecodeError`, the two whole-string fallbacks, and the
catch-everything handler that turns any other exception into `None` —
is translated directly. -/

/-- Environment of standard-library operations used by `as_json_obj`:
`findMatches` is `re.findall` of the brace pattern, `repair` the
`re.sub` fixes for trailing commas and single quotes, `loads` is
`json.loads` (which can fail with `JSONDecodeError`, or with another
exception such as `RecursionError`). -/
structure JsonEnv where
  findMatches : String → List String
  repair : String → String
  loads : String → Except PyErr PyVal

/-- The match loop: try each regex match, repaired, in order; a
`JSONDecodeError` moves to the next match, any other error propagates. -/
def tryMatches (env : JsonEnv) : List String → Except PyErr (Option PyVal)
  | [] => .ok none
  | m :: rest =>
    match env.loads (env.repair m) with
    | .ok j => .ok (some j)
    | .error .decodeError => tryMatches env rest
    | .error e => .error e

/-- Body of the outer `try` of `as_json_obj`. -/
def asJsonBody (env : JsonEnv) (raw : String) : Except PyErr (Option PyVal) := do
  let fromMatches ← (
    match env.findMatches raw with
    | [] => Except.ok none
    | m :: rest => tryMatches env (m :: rest))
  match fromMatches with
  | some j => .ok (some j)
  | none =>
    match env.loads raw with
    | .ok j => .ok (some j)
    | .error .decodeError =>
      match env.loads (env.repair raw) with
      | .ok j => .ok (some j)
      | .error .decodeError => .ok none
      | .error e => .error e
    | .error e => .error e

/-- `as_json_obj`: `None` on the empty string; otherwise the body runs
under a handler that converts every exception into `None`. -/
def as_json_obj (env : JsonEnv) (raw : String) : Option PyVal :=
  if raw = "" then none
  else
    match asJsonBody env raw with
    | .ok r => r
    | .error _ => none

set_option maxRecDepth 16000 in
example : match_score "abcdefg" "abcdefg" = 1 := by decide

set_option maxRecDepth 16000 in
example : match_score "abcdefg" "abcdefx" = mkRat 6 7 := by decide

set_option maxRecDepth 16000 in
example : match_score "Go to  Effects" "go,to.effects" = 1 := by decide


/-! # Claims

One theorem per claim of the specification review, with concrete
witnesses and counterexamples where required. -/

/-- Concrete inputs used by the witness and counterexample theorems. -/
def cexGroup : InlineGroup Nat := ⟨["abcd", "efg"], [0, 0], [0, 1]⟩

/-- Store owning the two fragments of `cexGroup`. -/
def cexStore : Store := [[.textC "abcd"], [.textC "efg"]]

/-- Mapping-call oracle whose reply concatenates to `"abcdefx"`,
similarity `6/7 ≈ 0.857` against the translation `"abcdefg"`. -/
def cexMapO : Nat → Option PyVal := fun _ =>
  some (.pdict [("0", .pstr "abcd"), ("1", .pstr "efx")])

/-- C9: for every original piece dictionary, translated string and
candidate piece dictionary, a piece-count mismatch makes
`validate_fit_in` return fit score `0.0` with the length-mismatch
reason, regardless of all string contents. -/
theorem C9_length_mismatch_scores_zero (shreds_in : List (String × PyVal))
    (trans_str : String) (shreds_out : List (String × PyVal))
    (h : shreds_in.length ≠ shreds_out.length) :
    validate_fit_in shreds_in trans_str shreds_out
      = .ok (0, lengthNotMatchMsg shreds_in.length shreds_out.length) := by
  simp [validate_fit_in, h]

/-- C9 witness: one original piece against an empty candidate. -/
theorem C9_witness :
    ([("0", PyVal.pstr "a")].length ≠ ([] : List (String × PyVal)).length)
    ∧ validate_fit_in [("0", PyVal.pstr "a")] "x" [] = .ok (0, lengthNotMatchMsg 1 0) :=
  ⟨by decide, C9_length_mismatch_scores_zero [("0", PyVal.pstr "a")] "x" [] (by decide)⟩

/-- C7: when the group's concatenated original text has normalised
similarity `1.0` with the translated string, `group_fit_in` returns
Success, issues no backend call, and leaves every node's text
unchanged (the store is returned as-is). -/
theorem C7_fast_path_idempotent (mapO : Nat → Option PyVal) (reorderO : Option PyVal)
    (group : InlineGroup Nat) (ori trans : String) (store : Store)
    (h : match_score group.toStr trans = 1) :
    group_fit_in mapO reorderO group ori trans store = .ok ⟨'S', store, [], 0, 0⟩ := by
  simp [group_fit_in, h]

set_option maxRecDepth 400000 in
/-- C7 witness: a run already in target form up to case, spacing and
punctuation. -/
theorem C7_witness :
    match_score (InlineGroup.toStr ⟨["0 images selected"], [0], [0]⟩) "0  IMAGES selected." = 1
    ∧ group_fit_in (fun _ => none) none ⟨["0 images selected"], [0], [0]⟩
        "0 images selected" "0  IMAGES selected." [[.textC "0 images selected"]]
      = .ok ⟨'S', [[.textC "0 images selected"]], [], 0, 0⟩ :=
  ⟨by decide, C7_fast_path_idempotent _ _ _ _ _ _ (by decide)⟩

/-- C8: a single-fragment group that does not already match the
translation takes the direct-replacement path: the fragment's slot is
overwritten with the whole translated string, the result is Success,
and no mapping or restructuring call is issued (empty trace). -/
theorem C8_single_fragment_direct (mapO : Nat → Option PyVal) (reorderO : Option PyVal)
    (group : InlineGroup Nat) (ori trans : String) (store : Store) (eid cid : Nat)
    (hne : ¬ match_score group.toStr trans = 1)
    (h1 : group.text_shreds.length = 1)
    (heid : group.elements.head? = some eid)
    (hcid : group.cids.head? = some cid)
    (hval : cid < (store.getD eid []).length) :
    group_fit_in mapO reorderO group ori trans store
      = .ok ⟨'S', store.set eid ((store.getD eid []).set cid (.textC trans)), [], 1, 0⟩ := by
  have hval' : cid < (store[eid]?.getD []).length := by simpa [List.getD] using hval
  simp [group_fit_in, hne, h1, heid, hcid, hval', bind, Except.bind, List.getD]

set_option maxRecDepth 400000 in
/-- C8 witness: the spec's Scenario B run `["0 images selected"]`. -/
theorem C8_witness :
    ¬ match_score (InlineGroup.toStr ⟨["0 images selected"], [0], [0]⟩) "0 Bilder" = 1
    ∧ group_fit_in (fun _ => none) none ⟨["0 images selected"], [0], [0]⟩
        "0 images selected" "0 Bilder" [[.textC "0 images selected"]]
      = .ok ⟨'S', [[.textC "0 Bilder"]], [], 1, 0⟩ :=
  ⟨by decide, C8_single_fragment_direct _ _ _ _ _ _ 0 0 (by decide) (by decide)
    (by decide) (by decide) (by decide)⟩

/-- C10: `as_json_obj` is total: the empty string gives `None`, any
exception escaping the body is caught and gives `None`, and a body
that extracts a JSON object yields it. -/
theorem C10_as_json_obj_total (env : JsonEnv) (raw : String) :
    (as_json_obj env "" = none)
    ∧ (∀ e, asJsonBody env raw = .error e → as_json_obj env raw = none)
    ∧ (∀ j, raw ≠ "" → asJsonBody env raw = .ok (some j) → as_json_obj env raw = some j) := by
  refine ⟨by simp [as_json_obj], fun e he => ?_, fun j hraw hok => ?_⟩
  · by_cases h0 : raw = ""
    · simp [as_json_obj, h0]
    · simp [as_json_obj, h0, he]
  · simp [as_json_obj, hraw, hok]

/-- C10 witness: a concrete environment whose first regex match parses
after repair, and the empty-string case. -/
theorem C10_witness :
    (as_json_obj ⟨fun _ => ["(-)"], fun s => s, fun s =>
        if s = "(-)" then .ok (.pdict []) else .error .decodeError⟩ "" = none)
    ∧ (("x(-)y" : String) ≠ "")
    ∧ as_json_obj ⟨fun _ => ["(-)"], fun s => s, fun s =>
        if s = "(-)" then .ok (.pdict []) else .error .decodeError⟩ "x(-)y"
        = some (.pdict []) :=
  ⟨(C10_as_json_obj_total ⟨fun _ => ["(-)"], fun s => s, fun s =>
      if s = "(-)" then .ok (.pdict []) else .error .decodeError⟩ "x(-)y").1,
   by decide,
   (C10_as_json_obj_total ⟨fun _ => ["(-)"], fun s => s, fun s =>
      if s = "(-)" then .ok (.pdict []) else .error .decodeError⟩ "x(-)y").2.2
     (.pdict []) (by decide) rfl⟩

/-- The round counter the review loop returns grows by at most the
remaining fuel. -/
theorem reviewRounds_le (oracle : Nat → Nat → RResp) (models : List String) :
    ∀ fuel r flag tr, (reviewRounds oracle models r fuel flag tr).2.1 ≤ r + fuel := by
  intro fuel
  induction fuel with
  | zero => intro r flag tr; simp [reviewRounds]
  | succ fuel ih =>
    intro r flag tr
    rcases hrw : reviewRound oracle models r flag with ⟨entries, flag', calls⟩
    simp only [reviewRounds, hrw]
    by_cases h1 : isErrorFlag flag' = true
    · rw [if_pos h1]
      show r + 1 ≤ r + (fuel + 1)
      omega
    · rw [if_neg h1]
      by_cases h2 : ¬ entries.isEmpty ∧ entries.all (fun e => entryIsNone e.2)
      · rw [if_pos h2]
        show r + 1 ≤ r + (fuel + 1)
        omega
      · rw [if_neg h2]
        have := ih (r + 1) flag' (tr ++ calls)
        omega

/-- C6: the review loop returns after at most `M` rounds, and the
returned translation is exactly the (non-null) incoming translation
string — on every oracle, including one whose replies never parse. -/
theorem C6_review_terminates (sourceText translatedText : String) (models : List String)
    (oracle : Nat → Nat → RResp) (M : Nat) :
    (review_n_improve_process sourceText translatedText models oracle M).rounds ≤ M
    ∧ (review_n_improve_process sourceText translatedText models oracle M).finalText
        = translatedText := by
  refine ⟨?_, rfl⟩
  have h := reviewRounds_le oracle models M 0 .notPassed []
  simpa [review_n_improve_process] using h


/-! ## Claim C1: segmentation budget -/

/-- Two-run map used by the C1 counterexample: estimates 2 and 2. -/
def c1Groups : List (String × InlineGroup Nat) :=
  [("0", ⟨["ab"], [0], [0]⟩), ("1", ⟨["cd"], [0], [1]⟩)]

/-- C1 counterexample: with budget `B = 2` and token counter
`String.length`, both runs estimate `2 ≤ B` (so neither is an
"explicitly-skipped oversized run"), yet the single emitted segment
totals `4 > B`: the close check `token_cnt > len_seg` runs before the
run is added, so a segment can exceed the budget. -/
theorem C1_counterexample :
    (∀ p ∈ c1Groups, String.length p.2.toStr ≤ 2)
    ∧ segment_groups_map c1Groups 2 String.length
        = [[("0", ⟨["ab"], [0], [0]⟩), ("1", ⟨["cd"], [0], [1]⟩)]]
    ∧ segTotal String.length
        [(("0" : String), (⟨["ab"], [0], [0]⟩ : InlineGroup Nat)),
         ("1", ⟨["cd"], [0], [1]⟩)] = 4
    ∧ ¬ (4 : Nat) ≤ 2 :=
  ⟨by decide, by decide, by decide, by decide⟩

/-- `T ≤ ⌈T/B⌉ * B` for positive `B`. -/
theorem le_ceilDiv_mul {T B : Nat} (hB : 0 < B) : T ≤ ceilDiv T B * B := by
  have h1 := Nat.div_add_mod (T + B - 1) B
  have h2 := Nat.mod_lt (T + B - 1) hB
  have h3 : B * ((T + B - 1) / B) = ((T + B - 1) / B) * B := Nat.mul_comm _ _
  unfold ceilDiv
  omega

/-- `⌈T/B⌉` is positive when `T` is. -/
theorem ceilDiv_pos {T B : Nat} (hT : 0 < T) (hB : 0 < B) : 0 < ceilDiv T B :=
  Nat.div_pos (by omega) hB

/-- The target segment length `len_seg = ⌈T/⌈T/B⌉⌉` never exceeds the
budget `B`. -/
theorem lenSeg_le_budget {T B : Nat} (hT : 0 < T) (hB : 0 < B) :
    ceilDiv T (ceilDiv T B) ≤ B := by
  have hn : 0 < ceilDiv T B := ceilDiv_pos hT hB
  have hTn : T ≤ ceilDiv T B * B := le_ceilDiv_mul hB
  show (T + ceilDiv T B - 1) / ceilDiv T B ≤ B
  rw [Nat.div_le_iff_le_mul_add_pred hn]
  omega

/-- Invariant of the segmentation fold: closed segments stay within
`len_seg + max_token`, the running count mirrors the open segment, and
an empty open segment has count zero. -/
def SegInv (tc : String → Nat) (lenSeg maxToken : Nat) (st : SegState ε) : Prop :=
  (∀ s ∈ st.ret, segTotal tc s ≤ lenSeg + maxToken)
  ∧ segTotal tc st.seg = st.tokenCnt
  ∧ st.tokenCnt ≤ lenSeg + maxToken
  ∧ (st.seg = [] → st.tokenCnt = 0)

/-- `segTotal` distributes over append. -/
theorem segTotal_append (tc : String → Nat) (a b : List (String × InlineGroup ε)) :
    segTotal tc (a ++ b) = segTotal tc a + segTotal tc b := by
  simp [segTotal]

/-- One step of the segmentation loop preserves the invariant. -/
theorem segStep_inv {tc : String → Nat} {lenSeg maxToken : Nat} {st : SegState ε}
    (kg : String × InlineGroup ε) (h : SegInv tc lenSeg maxToken st) :
    SegInv tc lenSeg maxToken (segStep maxToken lenSeg tc st kg) := by
  obtain ⟨hret, hseg, hcnt, hemp⟩ := h
  unfold segStep
  by_cases hn : tc kg.2.toStr > maxToken
  · rw [if_pos hn]
    exact ⟨hret, hseg, hcnt, hemp⟩
  · rw [if_neg hn]
    by_cases hcl : (decide (st.tokenCnt > lenSeg) && !st.seg.isEmpty) = true
    · rw [if_pos hcl]
      refine ⟨?_, ?_, ?_, ?_⟩
      · intro s hs
        rcases List.mem_append.mp hs with h1 | h2
        · exact hret s h1
        · rcases List.mem_singleton.mp h2 with rfl
          omega
      · show segTotal tc ([] ++ [(toString 0, kg.2)]) = 0 + tc kg.2.toStr
        simp [segTotal]
      · show 0 + tc kg.2.toStr ≤ lenSeg + maxToken
        omega
      · simp
    · rw [if_neg hcl]
      dsimp only
      have hle : st.tokenCnt ≤ lenSeg := by
        by_cases hsegE : st.seg = []
        · have := hemp hsegE
          omega
        · by_contra hgt
          apply hcl
          have hne : st.seg.isEmpty = false := by
            simpa [List.isEmpty_iff] using hsegE
          simp [hne]
          omega
      refine ⟨hret, ?_, ?_, ?_⟩
      · show segTotal tc (st.seg ++ [(toString st.cnt, kg.2)]) = st.tokenCnt + tc kg.2.toStr
        rw [segTotal_append, hseg]
        simp [segTotal]
      · show st.tokenCnt + tc kg.2.toStr ≤ lenSeg + maxToken
        omega
      · simp

/-- The segmentation fold preserves the invariant. -/
theorem segFold_inv (tc : String → Nat) (lenSeg maxToken : Nat)
    (l : List (String × InlineGroup ε)) :
    ∀ st : SegState ε, SegInv tc lenSeg maxToken st →
      SegInv tc lenSeg maxToken (l.foldl (segStep maxToken lenSeg tc) st) := by
  induction l with
  | nil => exact fun st h => h
  | cons x xs ih => exact fun st h => ih _ (segStep_inv x h)

/-- C1 amended: for a positive budget, every emitted segment totals at
most `2·B` (namely `len_seg + B` with `len_seg ≤ B`), not `B`; the
oversized-run skip itself is as claimed. -/
theorem C1_amended {ε : Type} (groupsMap : List (String × InlineGroup ε)) (maxToken : Nat)
    (tokenCounter : String → Nat) (hpos : 0 < maxToken) :
    ∀ seg ∈ segment_groups_map groupsMap maxToken tokenCounter,
      segTotal tokenCounter seg ≤ 2 * maxToken := by
  intro seg hseg
  simp only [segment_groups_map] at hseg
  by_cases hT : (groupsMap.map (fun p => tokenCounter p.2.toStr)).sum = 0
  · simp [hT] at hseg
  · rw [if_neg hT] at hseg
    have hT0 : 0 < (groupsMap.map (fun p => tokenCounter p.2.toStr)).sum := by omega
    have hlen : ceilDiv (groupsMap.map (fun p => tokenCounter p.2.toStr)).sum
        (ceilDiv (groupsMap.map (fun p => tokenCounter p.2.toStr)).sum maxToken)
        ≤ maxToken := lenSeg_le_budget hT0 hpos
    have hinv := segFold_inv tokenCounter
      (ceilDiv (groupsMap.map (fun p => tokenCounter p.2.toStr)).sum
        (ceilDiv (groupsMap.map (fun p => tokenCounter p.2.toStr)).sum maxToken))
      maxToken groupsMap ⟨[], 0, 0, []⟩
      ⟨by simp, by simp [segTotal], Nat.zero_le _, fun _ => rfl⟩
    obtain ⟨hret, hseg', hcnt, _⟩ := hinv
    rcases List.mem_append.mp hseg with h1 | h2
    · have := hret seg h1
      omega
    · rcases List.mem_singleton.mp h2 with rfl
      omega

/-- C1 witness for the amended bound, at the counterexample's input. -/
theorem C1_witness :
    (0 : Nat) < 2
    ∧ segTotal String.length
        [(("0" : String), (⟨["ab"], [0], [0]⟩ : InlineGroup Nat)),
         ("1", ⟨["cd"], [0], [1]⟩)] ≤ 2 * 2 :=
  ⟨by decide, C1_amended c1Groups 2 String.length (by decide) _ (by decide)⟩

/-! ## Claim C3: the review-improve round -/

/-- Review oracle whose replies always parse with a non-null issue. -/
def c3Oracle : Nat → Nat → RResp := fun _ _ => .dictWithKey (.pstr "fix wording")

/-- C3 counterexample: a round cap of 3 with one model whose replies
always parse and are never perfect.  The loop runs its 3 rounds and
makes only review calls — no improve call is ever issued — and the
returned translation is the unchanged input; moreover the source
default for the round cap is 1, not 3. -/
theorem C3_counterexample :
    (∀ r m, c3Oracle r m = RResp.dictWithKey (PyVal.pstr "fix wording"))
    ∧ (review_n_improve_process "src" "orig" ["m1"] c3Oracle 3).rounds = 3
    ∧ (review_n_improve_process "src" "orig" ["m1"] c3Oracle 3).trace
        = [.reviewCall "m1", .reviewCall "m1", .reviewCall "m1"]
    ∧ (review_n_improve_process "src" "orig" ["m1"] c3Oracle 3).finalText = "orig"
    ∧ reviewDefaultMaxRetry ≠ 3 :=
  ⟨fun _ _ => rfl, by decide, by decide, by decide, by decide⟩

/-- Every call a review step appends is a review call. -/
theorem reviewStep_calls (oracle : Nat → Nat → RResp) (r : Nat)
    (acc : List (String × REntry) × PassFlag × List CallKind) (p : Nat × String)
    (h : ∀ c ∈ acc.2.2, ∃ m, c = CallKind.reviewCall m) :
    ∀ c ∈ (reviewStep oracle r acc p).2.2, ∃ m, c = CallKind.reviewCall m := by
  unfold reviewStep
  cases oracle r p.1 <;>
    · intro c hc
      rcases List.mem_append.mp hc with h1 | h2
      · exact h c h1
      · exact ⟨p.2, List.mem_singleton.mp h2⟩

/-- Every call a review round makes is a review call. -/
theorem reviewRound_calls (oracle : Nat → Nat → RResp) (models : List String) (r : Nat)
    (flag0 : PassFlag) :
    ∀ c ∈ (reviewRound oracle models r flag0).2.2, ∃ m, c = CallKind.reviewCall m := by
  unfold reviewRound
  suffices h : ∀ (l : List (Nat × String)) (acc : List (String × REntry) × PassFlag × List CallKind),
      (∀ c ∈ acc.2.2, ∃ m, c = CallKind.reviewCall m) →
      ∀ c ∈ (l.foldl (reviewStep oracle r) acc).2.2, ∃ m, c = CallKind.reviewCall m by
    exact h models.enum ([], flag0, []) (by simp)
  intro l
  induction l with
  | nil => exact fun acc h => h
  | cons x xs ih => exact fun acc h => ih _ (reviewStep_calls oracle r acc x h)

/-- Every call the whole round loop makes is a review call. -/
theorem reviewRounds_calls (oracle : Nat → Nat → RResp) (models : List String) :
    ∀ fuel r flag tr, (∀ c ∈ tr, ∃ m, c = CallKind.reviewCall m) →
      ∀ c ∈ (reviewRounds oracle models r fuel flag tr).2.2, ∃ m, c = CallKind.reviewCall m := by
  intro fuel
  induction fuel with
  | zero => intro r flag tr h; simpa [reviewRounds] using h
  | succ fuel ih =>
    intro r flag tr h
    rcases hrw : reviewRound oracle models r flag with ⟨entries, flag', calls⟩
    have hcalls : ∀ c ∈ tr ++ calls, ∃ m, c = CallKind.reviewCall m := by
      intro c hc
      rcases List.mem_append.mp hc with h1 | h2
      · exact h c h1
      · have hr := reviewRound_calls oracle models r flag
        rw [hrw] at hr
        exact hr c h2
    simp only [reviewRounds, hrw]
    by_cases h1 : isErrorFlag flag' = true
    · rw [if_pos h1]; exact hcalls
    · rw [if_neg h1]
      by_cases h2 : ¬ entries.isEmpty ∧ entries.all (fun e => entryIsNone e.2)
      · rw [if_pos h2]; exact hcalls
      · rw [if_neg h2]; exact ih (r + 1) flag' (tr ++ calls) hcalls

/-- C3 amended: the improve block is commented out in the source — on
every input the loop issues no improve call and never changes the
current translation, and the source default for the round cap is 1. -/
theorem C3_amended (sourceText translatedText : String) (models : List String)
    (oracle : Nat → Nat → RResp) (M : Nat) :
    (review_n_improve_process sourceText translatedText models oracle M).finalText
        = translatedText
    ∧ (∀ c ∈ (review_n_improve_process sourceText translatedText models oracle M).trace,
        c ≠ CallKind.improveCall)
    ∧ reviewDefaultMaxRetry = 1 := by
  refine ⟨rfl, ?_, rfl⟩
  intro c hc
  have h := reviewRounds_calls oracle models M 0 .notPassed [] (by simp) c hc
  rcases h with ⟨m, rfl⟩
  exact fun h => CallKind.noConfusion h

/-! ## Claim C4: write-back atomicity -/

/-- Group for the C4 scenarios: two fragments, both slots valid. -/
def c4Group : InlineGroup Nat := ⟨["ab", "cd"], [0, 0], [0, 1]⟩

/-- Store owning the two fragments of `c4Group`. -/
def c4Store : Store := [[.textC "ab"], [.textC "cd"]]

/-- Mapping oracle whose reply fits the translation perfectly. -/
def c4MapO : Nat → Option PyVal := fun _ =>
  some (.pdict [("0", .pstr "XY"), ("1", .pstr "Z")])

/-- Reorder reply carrying three reordered pieces but only one child
index — a shape the model is free to return. -/
def c4ReorderO : Option PyVal :=
  some (.pdict
    [("reordered_text_shreds", .pdict [("0", .pstr "X"), ("1", .pstr "Y"), ("2", .pstr "Z")]),
     ("reordered_cids", .plist [.pint 0])])

set_option maxRecDepth 400000 in
/-- C4 counterexample: the run reports Success, the write-back loop
errors on two of the three selected pieces (`wbSkips = 2`, each
swallowed by the per-piece `except: continue`), and exactly one piece
is written: the tree ends up partially written — neither every
selected piece nor none. -/
theorem C4_counterexample :
    restruct c4MapO c4ReorderO c4Group "abcd" "XYZ" c4Store
      = .ok ⟨'S', [[.textC "X"], [.textC "cd"]], [.mapCall, .reorderCall], 1, 2⟩
    ∧ ([[DomChild.textC "X"], [DomChild.textC "cd"]] : Store) ≠ c4Store
    ∧ (1 : Nat) ≠ 0 ∧ (2 : Nat) ≠ 0 :=
  ⟨by decide, by decide, by decide, by decide⟩

/-- C4 amended: write-back is per-piece, not all-or-nothing (see the
counterexample); the half of the claim the code does satisfy is that a
`Fail` run is a strict no-op: the store is unchanged and no piece was
written. -/
theorem C4_amended (mapO : Nat → Option PyVal) (reorderO : Option PyVal)
    (group : InlineGroup Nat) (ori trans : String) (store : Store) (r : RestructOut)
    (h : restruct mapO reorderO group ori trans store = .ok r) (hF : r.code = 'F') :
    r.store = store ∧ r.wbWrites = 0 := by
  simp only [restruct] at h
  rcases hc : (restructLoop mapO (shredsInOf group) trans 0 10 []).1 with _ | ⟨c, cs⟩
  · rw [hc] at h
    cases h
    exact ⟨rfl, rfl⟩
  · rw [hc] at h
    dsimp only at h
    rcases hfin : resolveFinals reorderO (pyMaxByScore c cs).2 group with e | finals
    · rw [hfin] at h
      simp [bind, Except.bind] at h
    · rw [hfin] at h
      simp only [bind, Except.bind] at h
      cases h
      by_cases hlt : (pyMaxByScore c cs).1 < 1
      · simp [hlt] at hF
      · simp [hlt] at hF

/-- Mapping oracle that never parses: every attempt fails. -/
def c4FailO : Nat → Option PyVal := fun _ => none

set_option maxRecDepth 400000 in
/-- C4 witness: a run in which no candidate was ever recorded returns
`'F'` with the store untouched and zero writes. -/
theorem C4_witness :
    (⟨'F', c4Store, List.replicate 11 .mapCall, 0, 0⟩ : RestructOut).store = c4Store
    ∧ (⟨'F', c4Store, List.replicate 11 .mapCall, 0, 0⟩ : RestructOut).wbWrites = 0 :=
  C4_amended c4FailO none c4Group "abcd" "XYZ" c4Store _ (by decide) (by decide)


/-! ## Claim C2: result codes and the similarity clamp -/

set_option maxRecDepth 400000 in
/-- C2 counterexample: a candidate whose concatenation has similarity
`6/7 ≈ 0.857` against the translation — inside `[0.70, 1.0)`, so the
claim demands `Compromise` — is clamped to score `1.0` by
`validate_fit_in` and the run returns Success. -/
theorem C2_counterexample :
    match_score "abcdefg" "abcdefx" = mkRat 6 7
    ∧ mkRat 7 10 ≤ mkRat 6 7
    ∧ mkRat 6 7 < 1
    ∧ restruct cexMapO none cexGroup "abcdefg" "abcdefg" cexStore
        = .ok ⟨'S', [[.textC "abcd"], [.textC "efx"]], [.mapCall, .reorderCall], 2, 0⟩
    ∧ ('S' : Char) ≠ 'C' :=
  ⟨by decide, by decide, by decide, by decide, by decide⟩

/-- The length-mismatch reason is never the empty string. -/
theorem lengthNotMatchMsg_ne_empty (a b : Nat) : lengthNotMatchMsg a b ≠ "" := by
  intro h
  have hlen := congrArg String.length h
  rw [lengthNotMatchMsg] at hlen
  simp only [String.length_append] at hlen
  have h1 : (0 : Nat) < ("Length not match, in(" : String).length := by decide
  have h2 : ("" : String).length = 0 := by decide
  omega

/-- The string-mismatch reason is never the empty string. -/
theorem stringNotMatchMsg_ne_empty (a b : String) : stringNotMatchMsg a b ≠ "" := by
  intro h
  have hlen := congrArg String.length h
  rw [stringNotMatchMsg] at hlen
  simp only [String.length_append] at hlen
  have h1 : (0 : Nat) < ("String not match, to_fit=\"" : String).length := by decide
  have h2 : ("" : String).length = 0 := by decide
  omega

/-- A similarity ratio is never negative. -/
theorem match_score_nonneg (s1 s2 : String) : 0 ≤ match_score s1 s2 := by
  unfold match_score ratioOf
  split
  · exact zero_le_one
  · rw [Rat.mkRat_eq_div]
    positivity

/-- Every score `validate_fit_in` returns is either the clamped perfect
`1` with an empty reason, or lies in `[0, 0.7)` with a non-empty
reason. -/
theorem validate_score_cases {sin : List (String × PyVal)} {t : String}
    {sout : List (String × PyVal)} {s : ℚ} {msg : String}
    (h : validate_fit_in sin t sout = .ok (s, msg)) :
    (s = 1 ∧ msg = "") ∨ (0 ≤ s ∧ s < mkRat 7 10 ∧ msg ≠ "") := by
  unfold validate_fit_in at h
  by_cases hlen : sin.length ≠ sout.length
  · rw [if_pos hlen] at h
    simp only [Except.ok.injEq, Prod.mk.injEq] at h
    obtain ⟨h1, h2⟩ := h
    subst h1
    subst h2
    exact Or.inr ⟨le_refl 0, by decide, lengthNotMatchMsg_ne_empty _ _⟩
  · rw [if_neg hlen] at h
    rcases hs : sortByIntKey sout with e | sorted
    · rw [hs] at h
      simp [bind, Except.bind] at h
    · rw [hs] at h
      simp only [bind, Except.bind] at h
      rcases hj : pyStrJoin (sorted.map Prod.snd) with e | fit
      · rw [hj] at h
        simp at h
      · rw [hj] at h
        dsimp only at h
        by_cases hsc : match_score t fit < mkRat 7 10
        · rw [if_pos hsc] at h
          simp only [Except.ok.injEq, Prod.mk.injEq] at h
          obtain ⟨h1, h2⟩ := h
          subst h1
          subst h2
          exact Or.inr ⟨match_score_nonneg _ _, hsc, stringNotMatchMsg_ne_empty _ _⟩
        · rw [if_neg hsc] at h
          simp only [Except.ok.injEq, Prod.mk.injEq] at h
          obtain ⟨h1, h2⟩ := h
          subst h1
          subst h2
          exact Or.inl ⟨rfl, rfl⟩

/-- Classification of the candidate one retry-loop attempt appends:
scored `1` exactly when the attempt breaks the loop, otherwise in
`[0, 0.7)`. -/
theorem attemptOnce_some {sIn : List (String × PyVal)} {trans : String}
    {resp : Option PyVal} {c : ℚ × List (String × PyVal)} {b : Bool}
    (h : attemptOnce sIn trans resp = (some c, b)) :
    (c.1 = 1 ∧ b = true) ∨ (0 ≤ c.1 ∧ c.1 < mkRat 7 10 ∧ b = false) := by
  unfold attemptOnce at h
  rcases resp with _ | v
  · simp at h
  · dsimp only at h
    by_cases ht : (!pyTruthy v) = true
    · rw [if_pos ht] at h
      simp at h
    · rw [if_neg ht] at h
      cases v with
      | pstr s => simp at h
      | pint n => simp at h
      | plist l => simp at h
      | pbool bb => simp at h
      | pnull => simp at h
      | pdict l =>
        dsimp only at h
        rcases hv : validate_fit_in sIn trans
            (fixKeys (sIn.map Prod.fst) (canonDict l)) with e | sc
        · rw [hv] at h
          simp at h
        · rcases sc with ⟨score, err⟩
          rw [hv] at h
          dsimp only at h
          simp only [Prod.mk.injEq, Option.some.injEq] at h
          obtain ⟨h1, h2⟩ := h
          subst h1
          subst h2
          rcases validate_score_cases hv with ⟨h1, h2⟩ | ⟨h0, h1, h2⟩
          · exact Or.inl ⟨h1, by simp [h2]⟩
          · refine Or.inr ⟨h0, h1, ?_⟩
            simp [h2]

/-- Every candidate the retry loop collects scores `1` or lies in
`[0, 0.7)`. -/
theorem restructLoop_scores (mapO : Nat → Option PyVal) (sIn : List (String × PyVal))
    (trans : String) :
    ∀ fuel i acc, (∀ c ∈ acc, c.1 = 1 ∨ (0 ≤ c.1 ∧ c.1 < mkRat 7 10)) →
      ∀ c ∈ (restructLoop mapO sIn trans i fuel acc).1,
        c.1 = 1 ∨ (0 ≤ c.1 ∧ c.1 < mkRat 7 10) := by
  intro fuel
  induction fuel with
  | zero =>
    intro i acc hacc c hc
    simp only [restructLoop] at hc
    rcases List.mem_append.mp hc with h1 | h2
    · exact hacc c h1
    · rcases ha : attemptOnce sIn trans (mapO i) with ⟨copt, b⟩
      rw [ha] at h2
      rcases copt with _ | c'
      · simp at h2
      · simp only [Option.toList_some, List.mem_singleton] at h2
        subst h2
        rcases attemptOnce_some ha with ⟨h1, _⟩ | ⟨h0, h1, _⟩
        · exact Or.inl h1
        · exact Or.inr ⟨h0, h1⟩
  | succ fuel ih =>
    intro i acc hacc c hc
    simp only [restructLoop] at hc
    rcases ha : attemptOnce sIn trans (mapO i) with ⟨copt, b⟩
    rw [ha] at hc
    have hacc' : ∀ c ∈ acc ++ copt.toList, c.1 = 1 ∨ (0 ≤ c.1 ∧ c.1 < mkRat 7 10) := by
      intro c' hc'
      rcases List.mem_append.mp hc' with h1 | h2
      · exact hacc c' h1
      · rcases copt with _ | c''
        · simp at h2
        · simp only [Option.toList_some, List.mem_singleton] at h2
          subst h2
          rcases attemptOnce_some ha with ⟨h1, _⟩ | ⟨h0, h1, _⟩
          · exact Or.inl h1
          · exact Or.inr ⟨h0, h1⟩
    rcases b with _ | _
    · exact ih (i + 1) (acc ++ copt.toList) hacc' c hc
    · exact hacc' c hc

/-- Python's `max(fit_candidates, key=...)` returns a member. -/
theorem pyMaxByScore_mem {α : Type} (x : ℚ × α) (xs : List (ℚ × α)) :
    pyMaxByScore x xs = x ∨ pyMaxByScore x xs ∈ xs := by
  unfold pyMaxByScore
  induction xs generalizing x with
  | nil => exact Or.inl rfl
  | cons y ys ih =>
    simp only [List.foldl_cons]
    rcases ih (if x.1 < y.1 then y else x) with h | h
    · rw [h]
      by_cases hxy : x.1 < y.1
      · rw [if_pos hxy]
        exact Or.inr (List.mem_cons_self _ _)
      · rw [if_neg hxy]
        exact Or.inl rfl
    · exact Or.inr (List.mem_cons_of_mem y h)

/-- Python's `max(fit_candidates, key=...)` dominates every member. -/
theorem pyMaxByScore_ge {α : Type} (x : ℚ × α) (xs : List (ℚ × α)) :
    ∀ y ∈ x :: xs, y.1 ≤ (pyMaxByScore x xs).1 := by
  unfold pyMaxByScore
  induction xs generalizing x with
  | nil =>
    intro y hy
    rcases List.mem_singleton.mp hy with rfl
    exact le_refl _
  | cons z zs ih =>
    intro y hy
    simp only [List.foldl_cons]
    have hx : x.1 ≤ (if x.1 < z.1 then z else x).1 := by
      by_cases h : x.1 < z.1
      · rw [if_pos h]; exact le_of_lt h
      · rw [if_neg h]
    have hz : z.1 ≤ (if x.1 < z.1 then z else x).1 := by
      by_cases h : x.1 < z.1
      · rw [if_pos h]
      · rw [if_neg h]; exact le_of_not_lt h
    rcases List.mem_cons.mp hy with rfl | hy'
    · exact le_trans hx (ih _ _ (List.mem_cons_self _ _))
    · rcases List.mem_cons.mp hy' with rfl | hy''
      · exact le_trans hz (ih _ _ (List.mem_cons_self _ _))
      · exact ih _ y (List.mem_cons_of_mem _ hy'')

/-- C2 amended: because `validate_fit_in` clamps every accepted score
to `1.0`, a run that returns at all returns Success exactly when some
recorded candidate validated perfectly (piece count matched and
similarity reached 0.70), Compromise exactly when candidates were
recorded but every one scored below 0.70, and Fail exactly when no
candidate was ever recorded — no recorded score ever lies in
`[0.70, 1.0)`. -/
theorem C2_amended (mapO : Nat → Option PyVal) (reorderO : Option PyVal)
    (group : InlineGroup Nat) (ori trans : String) (store : Store) (r : RestructOut)
    (h : restruct mapO reorderO group ori trans store = .ok r) :
    (r.code = 'S' ↔ ∃ c ∈ (restructLoop mapO (shredsInOf group) trans 0 10 []).1, c.1 = 1)
    ∧ (r.code = 'C' ↔ (restructLoop mapO (shredsInOf group) trans 0 10 []).1 ≠ []
        ∧ ∀ c ∈ (restructLoop mapO (shredsInOf group) trans 0 10 []).1, c.1 < mkRat 7 10)
    ∧ (r.code = 'F' ↔ (restructLoop mapO (shredsInOf group) trans 0 10 []).1 = []) := by
  have hsc := restructLoop_scores mapO (shredsInOf group) trans 10 0 [] (by simp)
  simp only [restruct] at h
  rcases hc : (restructLoop mapO (shredsInOf group) trans 0 10 []).1 with _ | ⟨c, cs⟩
  · rw [hc] at h
    cases h
    refine ⟨?_, ?_, ?_⟩
    · constructor
      · intro hFS
        exact absurd hFS (show ('F' : Char) ≠ 'S' by decide)
      · rintro ⟨c', hc', _⟩
        simp at hc'
    · constructor
      · intro hFC
        exact absurd hFC (show ('F' : Char) ≠ 'C' by decide)
      · rintro ⟨hne, _⟩
        simp at hne
    · exact ⟨fun _ => rfl, fun _ => rfl⟩
  · rw [hc] at h
    dsimp only at h
    rcases hfin : resolveFinals reorderO (pyMaxByScore c cs).2 group with e | finals
    · rw [hfin] at h
      simp [bind, Except.bind] at h
    · rw [hfin] at h
      simp only [bind, Except.bind] at h
      cases h
      have hmem : pyMaxByScore c cs ∈ c :: cs := by
        rcases pyMaxByScore_mem c cs with h1 | h1
        · rw [h1]; exact List.mem_cons_self _ _
        · exact List.mem_cons_of_mem _ h1
      have hbest := hsc _ (show pyMaxByScore c cs
          ∈ (restructLoop mapO (shredsInOf group) trans 0 10 []).1 by rw [hc]; exact hmem)
      have hge := pyMaxByScore_ge c cs
      by_cases hlt : (pyMaxByScore c cs).1 < 1
      · refine ⟨?_, ?_, ?_⟩
        · show (if (pyMaxByScore c cs).1 < 1 then 'C' else 'S') = 'S' ↔ _
          rw [if_pos hlt]
          constructor
          · intro hCS
            exact absurd hCS (by decide)
          · rintro ⟨c', hc', h1⟩
            have := hge c' hc'
            rw [h1] at this
            exact absurd (lt_of_le_of_lt this hlt) (lt_irrefl 1)
        · show (if (pyMaxByScore c cs).1 < 1 then 'C' else 'S') = 'C' ↔ _
          rw [if_pos hlt]
          constructor
          · intro _
            refine ⟨by simp, ?_⟩
            intro c' hc'
            rcases hsc c' (show c' ∈ (restructLoop mapO (shredsInOf group) trans 0 10 []).1
                by rw [hc]; exact hc') with h1 | ⟨_, h1⟩
            · exfalso
              have := hge c' hc'
              rw [h1] at this
              exact absurd (lt_of_le_of_lt this hlt) (lt_irrefl 1)
            · exact h1
          · intro _
            rfl
        · show (if (pyMaxByScore c cs).1 < 1 then 'C' else 'S') = 'F' ↔ _
          rw [if_pos hlt]
          constructor
          · intro hCF
            exact absurd hCF (by decide)
          · intro hnil
            cases hnil
      · have h1 : (pyMaxByScore c cs).1 = 1 := by
          rcases hbest with h1 | ⟨_, h1⟩
          · exact h1
          · exfalso
            have h710 : mkRat 7 10 < 1 := by decide
            exact hlt (lt_trans h1 h710)
        refine ⟨?_, ?_, ?_⟩
        · show (if (pyMaxByScore c cs).1 < 1 then 'C' else 'S') = 'S' ↔ _
          rw [if_neg hlt]
          constructor
          · intro _
            exact ⟨pyMaxByScore c cs, hmem, h1⟩
          · intro _
            rfl
        · show (if (pyMaxByScore c cs).1 < 1 then 'C' else 'S') = 'C' ↔ _
          rw [if_neg hlt]
          constructor
          · intro hSC
            exact absurd hSC (by decide)
          · rintro ⟨_, hall⟩
            have := hall _ hmem
            rw [h1] at this
            exact absurd this (by decide)
        · show (if (pyMaxByScore c cs).1 < 1 then 'C' else 'S') = 'F' ↔ _
          rw [if_neg hlt]
          constructor
          · intro hSF
            exact absurd hSF (by decide)
          · intro hnil
            cases hnil

set_option maxRecDepth 400000 in
/-- C2 witness for the amended characterisation, at the
counterexample's input (one candidate, clamped score `1`, Success). -/
theorem C2_witness :
    ((⟨'S', [[.textC "abcd"], [.textC "efx"]], [.mapCall, .reorderCall], 2, 0⟩ : RestructOut).code
        = 'S'
      ↔ ∃ c ∈ (restructLoop cexMapO (shredsInOf cexGroup) "abcdefg" 0 10 []).1, c.1 = 1)
    ∧ ((⟨'S', [[.textC "abcd"], [.textC "efx"]], [.mapCall, .reorderCall], 2, 0⟩ : RestructOut).code
        = 'C'
      ↔ (restructLoop cexMapO (shredsInOf cexGroup) "abcdefg" 0 10 []).1 ≠ []
        ∧ ∀ c ∈ (restructLoop cexMapO (shredsInOf cexGroup) "abcdefg" 0 10 []).1,
            c.1 < mkRat 7 10)
    ∧ ((⟨'S', [[.textC "abcd"], [.textC "efx"]], [.mapCall, .reorderCall], 2, 0⟩ : RestructOut).code
        = 'F'
      ↔ (restructLoop cexMapO (shredsInOf cexGroup) "abcdefg" 0 10 []).1 = []) :=
  C2_amended cexMapO none cexGroup "abcdefg" "abcdefg" cexStore
    ⟨'S', [[.textC "abcd"], [.textC "efx"]], [.mapCall, .reorderCall], 2, 0⟩ (by decide)


/-! ## Claim C5: extractor ordering -/

/-- Tree with a block element nested inside an inline one. -/
def c5Tree : Node :=
  .elemN "div" [.elemN "span" [.textN "a", .elemN "div" [.textN "b"], .textN "c"]]

/-- C5 counterexample: on `div > span > (text, div > text, text)` the
extractor's runs, read in ascending ID order, concatenate to
`a, c, b`, while the document's left-to-right depth-first text order
is `a, b, c`: a block nested inside an inline element makes the outer
run interleave with the inner block's run, so ID order does not
reproduce document order. -/
theorem C5_counterexample :
    ((get_text_group_inline 20 c5Tree).map (fun p => p.2.text_shreds)).flatten
      = ["a", "c", "b"]
    ∧ specDfsTexts 20 c5Tree = ["a", "b", "c"]
    ∧ (["a", "c", "b"] : List String) ≠ ["a", "b", "c"] :=
  ⟨by decide, by decide, by decide⟩

/-- Membership in a stable insertion. -/
theorem mem_insertSorted {le : α → α → Bool} {x a : α} {l : List α} :
    a ∈ insertSorted le x l ↔ a = x ∨ a ∈ l := by
  induction l with
  | nil => simp [insertSorted]
  | cons y ys ih =>
    unfold insertSorted
    by_cases h : le y x = true
    · rw [if_pos h]
      simp only [List.mem_cons, ih]
      tauto
    · rw [if_neg h]
      simp only [List.mem_cons]

/-- A stable insertion permutes the inserted element onto the list. -/
theorem insertSorted_perm (le : α → α → Bool) (x : α) (l : List α) :
    List.Perm (insertSorted le x l) (x :: l) := by
  induction l with
  | nil => exact List.Perm.refl _
  | cons y ys ih =>
    unfold insertSorted
    by_cases h : le y x = true
    · rw [if_pos h]
      exact (ih.cons y).trans (List.Perm.swap x y ys)
    · rw [if_neg h]

/-- The stable sort is a permutation of its input. -/
theorem stableSortBy_perm (le : α → α → Bool) (l : List α) :
    List.Perm (stableSortBy le l) l := by
  suffices h : ∀ acc : List α,
      List.Perm (List.foldl (fun acc x => insertSorted le x acc) acc l) (l ++ acc) by
    simpa [stableSortBy] using h []
  induction l with
  | nil => intro acc; simp
  | cons x xs ih =>
    intro acc
    simp only [List.foldl_cons]
    refine ((ih _).trans ?_)
    refine (List.Perm.append_left xs (insertSorted_perm le x acc)).trans ?_
    exact List.perm_middle

/-- Stable insertion preserves sortedness for a total transitive
comparison. -/
theorem insertSorted_pairwise {le : α → α → Bool}
    (htot : ∀ a b, le a b || le b a)
    (htr : ∀ a b c, le a b = true → le b c = true → le a c = true)
    (x : α) {l : List α} (h : l.Pairwise (fun a b => le a b = true)) :
    (insertSorted le x l).Pairwise (fun a b => le a b = true) := by
  induction l with
  | nil => simp [insertSorted]
  | cons y ys ih =>
    rcases List.pairwise_cons.mp h with ⟨hy, hys⟩
    unfold insertSorted
    by_cases hyx : le y x = true
    · rw [if_pos hyx]
      refine List.pairwise_cons.mpr ⟨?_, ih hys⟩
      intro b hb
      rcases mem_insertSorted.mp hb with rfl | hb'
      · exact hyx
      · exact hy b hb'
    · rw [if_neg hyx]
      have hxy : le x y = true := by
        rcases (Bool.or_eq_true _ _).mp (htot x y) with h1 | h1
        · exact h1
        · exact absurd h1 hyx
      refine List.pairwise_cons.mpr ⟨?_, h⟩
      intro b hb
      rcases List.mem_cons.mp hb with rfl | hb'
      · exact hxy
      · exact htr x y b hxy (hy b hb')

/-- The stable sort sorts, for a total transitive comparison. -/
theorem stableSortBy_pairwise {le : α → α → Bool}
    (htot : ∀ a b, le a b || le b a)
    (htr : ∀ a b c, le a b = true → le b c = true → le a c = true)
    (l : List α) :
    (stableSortBy le l).Pairwise (fun a b => le a b = true) := by
  suffices h : ∀ acc : List α, acc.Pairwise (fun a b => le a b = true) →
      (List.foldl (fun acc x => insertSorted le x acc) acc l).Pairwise
        (fun a b => le a b = true) from h [] (by simp)
  induction l with
  | nil => exact fun acc h => h
  | cons x xs ih =>
    intro acc h
    exact ih _ (insertSorted_pairwise htot htr x h)


/-- Invariant of the depth-first walk: the counter never decreases,
the returned open group is sorted by counter and bounded by the new
counter, under an inline parent the open group only grows (by
fragments counted from `cnt` on), and every emitted group is sorted by
counter.  Holds for every fuel. -/
theorem travGo_inv (fuel : Nat) :
    ∀ (path : List Nat) (inline : Bool) (cs : List Node) (cid cnt : Nat)
      (group : List Shred) (acc : List (List Shred)),
      group.Pairwise (fun a b => a.ord < b.ord) →
      (∀ s ∈ group, s.ord < cnt) →
      (∀ g ∈ acc, g.Pairwise (fun a b => a.ord < b.ord)) →
      cnt ≤ (travGo fuel path inline cs cid cnt group acc).2.1
      ∧ (travGo fuel path inline cs cid cnt group acc).1.Pairwise
          (fun a b => a.ord < b.ord)
      ∧ (∀ s ∈ (travGo fuel path inline cs cid cnt group acc).1,
          s.ord < (travGo fuel path inline cs cid cnt group acc).2.1)
      ∧ (inline = true →
          ∃ new, (travGo fuel path inline cs cid cnt group acc).1 = group ++ new
            ∧ ∀ s ∈ new, cnt ≤ s.ord)
      ∧ (∀ g ∈ (travGo fuel path inline cs cid cnt group acc).2.2,
          g.Pairwise (fun a b => a.ord < b.ord)) := by
  induction fuel with
  | zero =>
    intro path inline cs cid cnt group acc hg hub hacc
    simp only [travGo]
    exact ⟨le_refl _, hg, hub, fun _ => ⟨[], by simp, by simp⟩, hacc⟩
  | succ fuel ih =>
    intro path inline cs cid cnt group acc hg hub hacc
    cases cs with
    | nil =>
      simp only [travGo]
      exact ⟨le_refl _, hg, hub, fun _ => ⟨[], by simp, by simp⟩, hacc⟩
    | cons c rest =>
      cases c with
      | commentN s =>
        simp only [travGo]
        exact ih path inline rest (cid + 1) cnt group acc hg hub hacc
      | textN s =>
        simp only [travGo]
        by_cases hign : ignorableText s = true
        · rw [if_pos hign]
          exact ih path inline rest (cid + 1) cnt group acc hg hub hacc
        · rw [if_neg hign]
          have hg' : (group ++ [(⟨stripNl s, cid, path, cnt⟩ : Shred)]).Pairwise
              (fun a b => a.ord < b.ord) := by
            rw [List.pairwise_append]
            refine ⟨hg, by simp, ?_⟩
            intro a ha b hb
            rcases List.mem_singleton.mp hb with rfl
            exact hub a ha
          have hub' : ∀ s' ∈ group ++ [(⟨stripNl s, cid, path, cnt⟩ : Shred)],
              s'.ord < cnt + 1 := by
            intro s' hs'
            rcases List.mem_append.mp hs' with h1 | h2
            · have := hub s' h1
              omega
            · rcases List.mem_singleton.mp h2 with rfl
              simp
          obtain ⟨hA, hB1, hBu, hB2, hC⟩ := ih path inline rest (cid + 1) (cnt + 1)
            (group ++ [⟨stripNl s, cid, path, cnt⟩]) acc hg' hub' hacc
          refine ⟨by omega, hB1, hBu, ?_, hC⟩
          intro hin
          obtain ⟨new, hnew, hlb⟩ := hB2 hin
          refine ⟨⟨stripNl s, cid, path, cnt⟩ :: new, ?_, ?_⟩
          · rw [hnew, List.append_assoc]
            rfl
          · intro s' hs'
            rcases List.mem_cons.mp hs' with rfl | h2
            · exact le_refl _
            · have := hlb s' h2
              omega
      | elemN nm cs' =>
        simp only [travGo]
        by_cases hscr : nm = "script"
        · rw [if_pos hscr]
          exact ih path inline rest (cid + 1) cnt group acc hg hub hacc
        · rw [if_neg hscr]
          obtain ⟨iA, iB1, iBu, iB2, iC⟩ := ih (path ++ [cid]) (is_inline_ele nm) cs' 0 cnt
            [] acc List.Pairwise.nil (by simp) hacc
          rcases hres : travGo fuel (path ++ [cid]) (is_inline_ele nm) cs' 0 cnt [] acc
            with ⟨innerG, innerCnt, innerAcc⟩
          rw [hres] at iA iB1 iBu iB2 iC
          dsimp only at iA iB1 iBu iB2 iC
          by_cases hinl : is_inline_ele nm = true
          · have hfl : travFlush (is_inline_ele nm) (innerG, innerCnt, innerAcc)
                = (some innerG, innerCnt, innerAcc) := by
              simp [travFlush, hinl]
            rw [hfl]
            have hIlb : ∀ s ∈ innerG, cnt ≤ s.ord := by
              obtain ⟨newI, hInew, hIl⟩ := iB2 hinl
              intro s hs
              apply hIl
              rw [List.nil_append] at hInew
              rw [← hInew]
              exact hs
            have hg2 : (group ++ innerG).Pairwise (fun a b => a.ord < b.ord) := by
              rw [List.pairwise_append]
              refine ⟨hg, iB1, ?_⟩
              intro a ha b hb
              exact lt_of_lt_of_le (hub a ha) (hIlb b hb)
            have hub2 : ∀ s ∈ group ++ innerG, s.ord < innerCnt := by
              intro s hs
              rcases List.mem_append.mp hs with h1 | h2
              · exact lt_of_lt_of_le (hub s h1) iA
              · exact iBu s h2
            obtain ⟨oA, oB1, oBu, oB2, oC⟩ := ih path inline rest (cid + 1) innerCnt
              (group ++ innerG) innerAcc hg2 hub2 iC
            refine ⟨le_trans iA oA, oB1, oBu, ?_, oC⟩
            intro hin
            obtain ⟨newO, hOnew, hOlb⟩ := oB2 hin
            refine ⟨innerG ++ newO, ?_, ?_⟩
            · rw [hOnew, List.append_assoc]
            · intro s hs
              rcases List.mem_append.mp hs with h1 | h2
              · exact hIlb s h1
              · exact le_trans iA (hOlb s h2)
          · have hfl : travFlush (is_inline_ele nm) (innerG, innerCnt, innerAcc)
                = (none, innerCnt,
                    if innerG ≠ [] then innerAcc ++ [innerG] else innerAcc) := by
              have hinl' : is_inline_ele nm = false := by
                cases h : is_inline_ele nm
                · rfl
                · exact absurd h hinl
              simp [travFlush, hinl']
            rw [hfl]
            dsimp only
            have hacc2 : ∀ g ∈ (if innerG ≠ [] then innerAcc ++ [innerG] else innerAcc),
                g.Pairwise (fun a b => a.ord < b.ord) := by
              by_cases hne : innerG ≠ []
              · rw [if_pos hne]
                intro g hgmem
                rcases List.mem_append.mp hgmem with h1 | h2
                · exact iC g h1
                · rcases List.mem_singleton.mp h2 with rfl
                  exact iB1
              · rw [if_neg hne]
                exact iC
            by_cases hfl2 : ¬ inline = true ∧ group ≠ []
            · rw [if_pos hfl2]
              have hacc3 : ∀ g ∈ ((if innerG ≠ [] then innerAcc ++ [innerG] else innerAcc)
                  ++ [group]), g.Pairwise (fun a b => a.ord < b.ord) := by
                intro g hgmem
                rcases List.mem_append.mp hgmem with h1 | h2
                · exact hacc2 g h1
                · rcases List.mem_singleton.mp h2 with rfl
                  exact hg
              obtain ⟨oA, oB1, oBu, oB2, oC⟩ := ih path inline rest (cid + 1) innerCnt
                [] ((if innerG ≠ [] then innerAcc ++ [innerG] else innerAcc) ++ [group])
                List.Pairwise.nil (by simp) hacc3
              refine ⟨le_trans iA oA, oB1, oBu, ?_, oC⟩
              intro hin
              exact absurd hin hfl2.1
            · rw [if_neg hfl2]
              have hub2 : ∀ s ∈ group, s.ord < innerCnt := by
                intro s hs
                exact lt_of_lt_of_le (hub s hs) iA
              obtain ⟨oA, oB1, oBu, oB2, oC⟩ := ih path inline rest (cid + 1) innerCnt
                group (if innerG ≠ [] then innerAcc ++ [innerG] else innerAcc)
                hg hub2 hacc2
              refine ⟨le_trans iA oA, oB1, oBu, ?_, oC⟩
              intro hin
              obtain ⟨newO, hOnew, hOlb⟩ := oB2 hin
              exact ⟨newO, hOnew, fun s hs => le_trans iA (hOlb s hs)⟩


/-- Every group emitted by the traversal is internally sorted by the
global fragment counter (depth-first visit order). -/
theorem extractGroupsRaw_pairwise (fuel : Nat) (root : Node) :
    ∀ g ∈ extractGroupsRaw fuel root, g.Pairwise (fun a b => a.ord < b.ord) := by
  cases root with
  | textN s =>
    intro g hg
    simp [extractGroupsRaw] at hg
  | commentN s =>
    intro g hg
    simp [extractGroupsRaw] at hg
  | elemN name cs =>
    intro g hg
    obtain ⟨-, hB1, -, -, hC⟩ := travGo_inv fuel [] (is_inline_ele name) cs 0 0 [] []
      List.Pairwise.nil (by simp) (by simp)
    simp only [extractGroupsRaw, travElem] at hg
    rcases hr : travGo fuel [] (is_inline_ele name) cs 0 0 [] [] with ⟨rg, rc, racc⟩
    rw [hr] at hB1 hC hg
    dsimp only at hB1 hC
    by_cases hinl : is_inline_ele name = true
    · simp only [travFlush, hinl] at hg
      simp at hg
      exact hC g hg
    · have hinl' : is_inline_ele name = false := by
        cases h : is_inline_ele name
        · rfl
        · exact absurd h hinl
      by_cases hne : rg = []
      · simp [travFlush, hinl', hne] at hg
        exact hC g hg
      · simp only [travFlush, hinl'] at hg
        simp only [Bool.false_eq_true, not_false_eq_true, if_true, ne_eq, hne,
          if_pos] at hg
        rcases List.mem_append.mp hg with h1 | h2
        · exact hC g h1
        · rcases List.mem_singleton.mp h2 with rfl
          exact hB1

/-- C5 (amended): `get_text_group_inline` assigns the sequential
string ids `"0", "1", ...` to the runs sorted by their first
fragment's counter, and within each run the fragments are in ascending
counter (depth-first) order; but the runs themselves need not
partition the document's depth-first text order (see the
counterexample: a block element nested inside an inline element makes
runs interleave). -/
theorem C5_amended (fuel : Nat) (root : Node) :
    ((get_text_group_inline fuel root).map Prod.fst
      = (List.range (extractGroups fuel root).length).map (fun i => toString i))
    ∧ (extractGroups fuel root).Pairwise (fun g1 g2 => firstOrd g1 ≤ firstOrd g2)
    ∧ (∀ g ∈ extractGroups fuel root, g.Pairwise (fun a b => a.ord < b.ord)) := by
  refine ⟨?_, ?_, ?_⟩
  · show ((extractGroups fuel root).enum.map _).map Prod.fst = _
    rw [List.map_map, ← List.enum_map_fst (extractGroups fuel root), List.map_map]
    rfl
  · have htot : ∀ a b : List Shred,
        (fun g1 g2 => decide (firstOrd g1 ≤ firstOrd g2)) a b
          || (fun g1 g2 => decide (firstOrd g1 ≤ firstOrd g2)) b a := by
      intro a b
      rcases Nat.le_total (firstOrd a) (firstOrd b) with h | h
      · simp [h]
      · simp [h]
    have htr : ∀ a b c : List Shred,
        (fun g1 g2 => decide (firstOrd g1 ≤ firstOrd g2)) a b = true →
        (fun g1 g2 => decide (firstOrd g1 ≤ firstOrd g2)) b c = true →
        (fun g1 g2 => decide (firstOrd g1 ≤ firstOrd g2)) a c = true := by
      intro a b c hab hbc
      exact decide_eq_true (Nat.le_trans (of_decide_eq_true hab) (of_decide_eq_true hbc))
    have h := stableSortBy_pairwise htot htr (extractGroupsRaw fuel root)
    exact h.imp (fun hab => of_decide_eq_true hab)
  · intro g hg
    have hmem : g ∈ extractGroupsRaw fuel root :=
      (stableSortBy_perm _ (extractGroupsRaw fuel root)).mem_iff.mp hg
    exact extractGroupsRaw_pairwise fuel root g hmem

end AILoc
